import Mathlib

/-!
Verification of the call-signature normalizer of the bsc repository
(src/contracts-project/cleanup.py and src/contracts-project/fix_test.py).

Both scripts read one text file, rewrite it with regular-expression and
literal substitutions, and write it back.  The text transformation of each
script is embedded here as a pure function on lists of characters.

The concrete regular expressions of the source are sequences of four kinds
of pieces only: a literal string, a single-character class, a greedy star
over a single-character class, and a greedy plus over a single-character
class.  The engine below implements exactly those pieces with Python
backtracking semantics (greedy, longest first), and the substitution
functions implement the scan semantics of re.sub and str.replace:
scan left to right, replace the leftmost match, continue after it.
All recursions are structural so that every function evaluates by decide.
-/

/-- Whitespace test matching the relevant behaviour of the regex class
backslash-s on the ASCII text this tool processes. -/
def isWs (c : Char) : Bool :=
  c == ' ' || c == '\t' || c == '\n' || c == '\r' ||
  c == Char.ofNat 11 || c == Char.ofNat 12

/-- The single-character classes appearing in the source regexes:
whitespace, anything but a comma, anything but a closing parenthesis. -/
inductive Cls where
  | ws : Cls
  | nc : Cls
  | np : Cls
deriving DecidableEq

/-- Membership in a character class. -/
def ccMem : Cls → Char → Bool
  | Cls.ws, c => isWs c
  | Cls.nc, c => !(c == ',')
  | Cls.np, c => !(c == ')')

/-- Regex pieces used by the source patterns: a literal, a greedy star over
a class, a greedy plus over a class. -/
inductive Tok where
  | lit : List Char → Tok
  | star : Cls → Tok
  | plus : Cls → Tok

/-- Test that the first argument is an initial segment of the second. -/
def leadsWith : List Char → List Char → Bool
  | [], _ => true
  | _ :: _, [] => false
  | a :: as, b :: bs => a == b && leadsWith as bs

/-- Length of the longest initial run of characters of the class. -/
def runLen (p : Cls) : List Char → Nat
  | [] => 0
  | c :: cs => if ccMem p c then runLen p cs + 1 else 0

/-- Try f at n, then n-1, ..., then 0, returning the first success.
This is the greedy backtracking order of a star of a character class. -/
def tryFrom {α : Type} (f : Nat → Option α) : Nat → Option α
  | 0 => f 0
  | n + 1 =>
    match f (n + 1) with
    | some a => some a
    | none => tryFrom f n

/-- Backtracking matcher for a sequence of regex pieces against a prefix of
the input, with a continuation receiving the unconsumed rest.  Greedy
star and plus over a single-character class can consume any count of
leading class characters, longest tried first, exactly as Python does. -/
def matchToks {α : Type} : List Tok → List Char → (List Char → Option α) → Option α
  | [], s, k => k s
  | Tok.lit l :: ts, s, k =>
    if leadsWith l s then matchToks ts (s.drop l.length) k else none
  | Tok.star p :: ts, s, k =>
    tryFrom (fun n => matchToks ts (s.drop n) k) (runLen p s)
  | Tok.plus p :: ts, s, k =>
    match runLen p s with
    | 0 => none
    | m + 1 => tryFrom (fun n => matchToks ts (s.drop (n + 1)) k) m

/-- A matcher takes the text from the current scan position and, on a match
starting exactly there, returns the replacement and the matched length. -/
def Matcher : Type := List Char → Option (List Char × Nat)

/-- Matcher for a pattern made of regex pieces with a constant replacement. -/
def mTok (toks : List Tok) (repl : List Char) : Matcher := fun s =>
  match matchToks toks s (fun r => some (s.length - r.length)) with
  | some n => some (repl, n)
  | none => none

/-- Matcher for a plain literal, as used by str.replace. -/
def mLit (p r : List Char) : Matcher := fun s =>
  if leadsWith p s then some (r, p.length) else none

/-- One substitution scan with fuel: at each position try the matcher; on a
match emit the replacement and continue after the matched text, otherwise
keep the character and move one position right.  With fuel at least the
length of the text this is the scan of re.sub and str.replace. -/
def subScanF (m : Matcher) : Nat → List Char → List Char
  | _, [] => []
  | 0, s => s
  | fuel + 1, c :: cs =>
    match m (c :: cs) with
    | some (r, n) => r ++ subScanF m fuel (cs.drop (n - 1))
    | none => c :: subScanF m fuel cs

/-- One full substitution pass over the text. -/
def subScan (m : Matcher) (t : List Char) : List Char := subScanF m t.length t

/-- Replace every occurrence of a literal, left to right, as str.replace. -/
def replaceAll (p r : List Char) (t : List Char) : List Char := subScan (mLit p r) t

/-- Pattern of the substitution on line 7 resp. 8 of cleanup.py: a comma,
whitespace containing a line break, then userN.address immediately before
a closing parenthesis and semicolon; replaced by the closer alone. -/
def mDup1 (d : Char) : Matcher :=
  mTok [Tok.lit [','], Tok.star Cls.ws, Tok.lit ['\n'], Tok.star Cls.ws,
        Tok.lit (("user").data ++ [d] ++ (".address);").data)]
       ((");").data)

/-- Pattern of the substitution on line 9 resp. 10 of cleanup.py: a trailing
userN.address argument duplicated over a line break before the closing
parenthesis; replaced by a single occurrence. -/
def mDup2 (d : Char) : Matcher :=
  mTok [Tok.lit [','], Tok.star Cls.ws,
        Tok.lit (("user").data ++ [d] ++ (".address").data), Tok.lit [','],
        Tok.star Cls.ws, Tok.lit ['\n'], Tok.star Cls.ws,
        Tok.lit (("user").data ++ [d] ++ (".address)").data)]
       ((", user").data ++ [d] ++ (".address)").data)

/-- First known-bad literal of cleanup.py (zero-amounts addLiquidity call). -/
def litPat1 : List Char :=
  ("pool.connect(user1).addLiquidity(0, LIQUIDITY_AMOUNT, 0, 0, deadline, user1.address,\n        user1.address)").data

/-- Its known-good counterpart. -/
def litRep1 : List Char :=
  ("pool.connect(user1).addLiquidity(0, LIQUIDITY_AMOUNT, 0, 0, deadline, user1.address)").data

/-- Second known-bad literal of cleanup.py. -/
def litPat2 : List Char :=
  ("removeLiquidity(lpBalance, 0, 0, pastDeadline, user1.address,\n        user1.address)").data

/-- Its known-good counterpart. -/
def litRep2 : List Char :=
  ("removeLiquidity(lpBalance, 0, 0, pastDeadline, user1.address)").data

/-- Third known-bad literal of cleanup.py. -/
def litPat3 : List Char :=
  ("removeLiquidity(lpBalance + 1n, 0, 0, deadline, user1.address,\n        user1.address)").data

/-- Its known-good counterpart. -/
def litRep3 : List Char :=
  ("removeLiquidity(lpBalance + 1n, 0, 0, deadline, user1.address)").data

/-- The duplicate-removal passes of cleanup.py (lines 7 to 10), in source
order: the two semicolon-anchored substitutions, then the two
duplicated-address substitutions. -/
def dupPass (t : List Char) : List Char :=
  subScan (mDup2 '2') (subScan (mDup2 '1') (subScan (mDup1 '2') (subScan (mDup1 '1') t)))

/-- The exact-literal replacement passes of cleanup.py (lines 13 to 21). -/
def litPass (t : List Char) : List Char :=
  replaceAll litPat3 litRep3 (replaceAll litPat2 litRep2 (replaceAll litPat1 litRep1 t))

/-- The whole text transformation of cleanup.py. -/
def cleanup_py (content : List Char) : List Char := litPass (dupPass content)

/-- The common literal prefix required by both insertion patterns of
fix_test.py. -/
def pcUser : List Char := ("pool.connect(user").data

/-- Continuation of the insertion patterns after the subject identifier for
addLiquidity calls. -/
def methAdd : List Char := (").addLiquidity(").data

/-- Continuation of the insertion patterns after the subject identifier for
removeLiquidity calls. -/
def methRem : List Char := (").removeLiquidity(").data

/-- Argument-slot pieces of the addLiquidity pattern of fix_test.py: four
comma-terminated slots that cannot contain commas, then one slot of
anything but a closing parenthesis. -/
def slotsAdd : List Tok :=
  [Tok.star Cls.ws, Tok.plus Cls.nc, Tok.lit [','],
   Tok.star Cls.ws, Tok.plus Cls.nc, Tok.lit [','],
   Tok.star Cls.ws, Tok.plus Cls.nc, Tok.lit [','],
   Tok.star Cls.ws, Tok.plus Cls.nc, Tok.lit [','],
   Tok.star Cls.ws, Tok.plus Cls.np]

/-- Argument-slot pieces of the removeLiquidity pattern of fix_test.py. -/
def slotsRem : List Tok :=
  [Tok.star Cls.ws, Tok.plus Cls.nc, Tok.lit [','],
   Tok.star Cls.ws, Tok.plus Cls.nc, Tok.lit [','],
   Tok.star Cls.ws, Tok.plus Cls.nc, Tok.lit [','],
   Tok.star Cls.ws, Tok.plus Cls.np]

/-- The third captured group of the insertion patterns: optional whitespace
then the closing parenthesis. -/
def closeToks : List Tok := [Tok.star Cls.ws, Tok.lit [')']]

/-- The replacement of fix_test.py: group one, a comma, a line break, eight
spaces, the subject identifier with .address, then group three. -/
def replace_func (d : Char) (g1 g3 : List Char) : List Char :=
  g1 ++ (",\n        user").data ++ [d] ++ (".address").data ++ g3

/-- The subject character of a candidate match: the character right after
the receiver literal (a blank, failing the guard, when the text is too
short, exactly as the pattern fails there). -/
def subjCh (s : List Char) : Char := (s.drop pcUser.length).headD ' '

/-- The text after the receiver literal and the subject identifier. -/
def afterSubj (s : List Char) : List Char := (s.drop pcUser.length).tail

/-- Matcher for the two insertion patterns of fix_test.py.  The pattern is
the receiver literal with a subject digit 1 or 2, the method literal, the
argument slots, then whitespace and the closing parenthesis.  Group one
runs from the start of the match to the end of the slots, group two is the
subject identifier, group three is the closer. -/
def mFixGen (meth : List Char) (slots : List Tok) : Matcher := fun s =>
  if leadsWith pcUser s && (subjCh s == '1' || subjCh s == '2')
      && leadsWith meth (afterSubj s) then
    match matchToks slots ((afterSubj s).drop meth.length)
        (fun r4 => matchToks closeToks r4 (fun r5 => some (r4.length, r5.length))) with
    | some (l4, l5) =>
      some (replace_func (subjCh s) (s.take (s.length - l4))
              ((s.take (s.length - l5)).drop (s.length - l4)),
            s.length - l5)
    | none => none
  else none

/-- The pattern of lines 7 to 11 of fix_test.py (addLiquidity, five slots). -/
def pattern : Matcher := mFixGen methAdd slotsAdd

/-- The pattern of lines 21 to 25 of fix_test.py (removeLiquidity, four
slots). -/
def pattern2 : Matcher := mFixGen methRem slotsRem

/-- The whole text transformation of fix_test.py: the addLiquidity
substitution, then the removeLiquidity substitution on its output. -/
def fix_test_py (content : List Char) : List Char :=
  subScan pattern2 (subScan pattern content)

/-- The full normalizer of the spec: the ordered passes of cleanup.py
(duplicate-trailing-argument removal, then exact-literal replacement)
followed by the passes of fix_test.py (missing-argument insertion). -/
def normalizeText (t : List Char) : List Char := fix_test_py (cleanup_py t)

/-! Basic lemmas about the matching primitives. -/

theorem leadsWith_append (l r : List Char) : leadsWith l (l ++ r) = true := by
  induction l with
  | nil => rfl
  | cons a as ih => simp [leadsWith, ih]

theorem leadsWith_length {l s : List Char} (h : leadsWith l s = true) :
    l.length ≤ s.length := by
  induction l generalizing s with
  | nil => simp
  | cons a as ih =>
    cases s with
    | nil => simp [leadsWith] at h
    | cons b bs =>
      simp only [leadsWith, Bool.and_eq_true] at h
      simpa [List.length_cons, Nat.succ_le_succ_iff] using ih h.2

theorem leadsWith_take {l s : List Char} (h : leadsWith l s = true) :
    s.take l.length = l := by
  induction l generalizing s with
  | nil => simp
  | cons a as ih =>
    cases s with
    | nil => simp [leadsWith] at h
    | cons b bs =>
      simp only [leadsWith, Bool.and_eq_true, beq_iff_eq] at h
      simp [List.take, ih h.2, h.1]

theorem leadsWith_mem {l s : List Char} (h : leadsWith l s = true) :
    ∀ c ∈ l, c ∈ s := by
  intro c hc
  have := leadsWith_take h
  have : c ∈ s.take l.length := by rw [this]; exact hc
  exact List.mem_of_mem_take this

theorem runLen_cons_neg {p : Cls} {c : Char} {cs : List Char}
    (h : ccMem p c = false) : runLen p (c :: cs) = 0 := by
  simp [runLen, h]

theorem runLen_append_stop {p : Cls} {w r : List Char}
    (hw : ∀ c ∈ w, ccMem p c = true) (hr : runLen p r = 0) :
    runLen p (w ++ r) = w.length := by
  induction w with
  | nil => simpa using hr
  | cons a as ih =>
    have ha : ccMem p a = true := hw a (List.mem_cons_self a as)
    simp [runLen, ha, ih (fun c hc => hw c (List.mem_cons_of_mem a hc))]

theorem mem_take_runLen {p : Cls} {s : List Char} {n : Nat}
    (hn : n ≤ runLen p s) : ∀ c ∈ s.take n, ccMem p c = true := by
  induction s generalizing n with
  | nil => simp
  | cons a as ih =>
    intro c hc
    cases n with
    | zero => simp at hc
    | succ m =>
      by_cases ha : ccMem p a = true
      · simp only [runLen, ha, if_true] at hn
        simp only [List.take, List.mem_cons] at hc
        rcases hc with rfl | hc
        · exact ha
        · exact ih (Nat.le_of_succ_le_succ hn) c hc
      · rw [runLen_cons_neg (Bool.eq_false_iff.mpr ha)] at hn
        exact absurd hn (by omega)

theorem tryFrom_top {α : Type} {f : Nat → Option α} {n : Nat} {a : α}
    (h : f n = some a) : tryFrom f n = some a := by
  cases n with
  | zero => simpa [tryFrom] using h
  | succ m => simp [tryFrom, h]

theorem tryFrom_exists {α : Type} {f : Nat → Option α} {n : Nat} {a : α}
    (h : tryFrom f n = some a) : ∃ m, m ≤ n ∧ f m = some a := by
  induction n with
  | zero => exact ⟨0, Nat.le_refl 0, by simpa [tryFrom] using h⟩
  | succ k ih =>
    rw [tryFrom] at h
    cases hf : f (k + 1) with
    | some b =>
      rw [hf] at h
      exact ⟨k + 1, Nat.le_refl _, hf.trans h⟩
    | none =>
      rw [hf] at h
      obtain ⟨m, hm, hfm⟩ := ih h
      exact ⟨m, Nat.le_succ_of_le hm, hfm⟩

theorem tryFrom_none {α : Type} {f : Nat → Option α} {n : Nat}
    (h : ∀ m, m ≤ n → f m = none) : tryFrom f n = none := by
  induction n with
  | zero => simpa [tryFrom] using h 0 (Nat.le_refl 0)
  | succ k ih =>
    simp only [tryFrom, h (k + 1) (Nat.le_refl _)]
    exact ih (fun m hm => h m (Nat.le_succ_of_le hm))

/-! Lemmas about the backtracking engine. -/

theorem matchToks_lit_chunk {α : Type} (l r : List Char) (ts : List Tok)
    (k : List Char → Option α) :
    matchToks (Tok.lit l :: ts) (l ++ r) k = matchToks ts r k := by
  simp [matchToks, leadsWith_append, List.drop_left]

theorem matchToks_star_zero {α : Type} {p : Cls} {s : List Char}
    (ts : List Tok) (k : List Char → Option α) (h : runLen p s = 0) :
    matchToks (Tok.star p :: ts) s k = matchToks ts s k := by
  simp [matchToks, h, tryFrom]

theorem matchToks_star_chunk {α : Type} {p : Cls} {w r : List Char}
    {ts : List Tok} {k : List Char → Option α} {a : α}
    (hw : ∀ c ∈ w, ccMem p c = true) (hr : runLen p r = 0)
    (h : matchToks ts r k = some a) :
    matchToks (Tok.star p :: ts) (w ++ r) k = some a := by
  rw [matchToks, runLen_append_stop hw hr]
  exact tryFrom_top (by rw [List.drop_left]; exact h)

theorem matchToks_plus_chunk {α : Type} {p : Cls} {w r : List Char}
    {ts : List Tok} {k : List Char → Option α} {a : α}
    (hw : ∀ c ∈ w, ccMem p c = true) (hw0 : w ≠ []) (hr : runLen p r = 0)
    (h : matchToks ts r k = some a) :
    matchToks (Tok.plus p :: ts) (w ++ r) k = some a := by
  rw [matchToks, runLen_append_stop hw hr]
  obtain ⟨m, hm⟩ : ∃ m, w.length = m + 1 := by
    cases w with
    | nil => exact absurd rfl hw0
    | cons c cs => exact ⟨cs.length, rfl⟩
  rw [hm]
  refine tryFrom_top ?_
  rw [show m + 1 = w.length from hm.symm, List.drop_left]
  exact h

theorem matchToks_k_bound {α : Type} {a : α} :
    ∀ (ts : List Tok) (s : List Char) (k : List Char → Option α),
      matchToks ts s k = some a → ∃ r : List Char, r.length ≤ s.length ∧ k r = some a := by
  intro ts
  induction ts with
  | nil => intro s k h; exact ⟨s, Nat.le_refl _, h⟩
  | cons t ts ih =>
    intro s k h
    cases t with
    | lit l =>
      rw [matchToks] at h
      by_cases hl : leadsWith l s = true
      · rw [if_pos hl] at h
        obtain ⟨r, hr, hk⟩ := ih _ _ h
        exact ⟨r, hr.trans (by simp), hk⟩
      · rw [if_neg hl] at h; exact absurd h (by simp)
    | star p =>
      rw [matchToks] at h
      obtain ⟨m, _, hm⟩ := tryFrom_exists h
      obtain ⟨r, hr, hk⟩ := ih _ _ hm
      exact ⟨r, hr.trans (by simp), hk⟩
    | plus p =>
      rw [matchToks] at h
      cases hrl : runLen p s with
      | zero => rw [hrl] at h; exact absurd h (by simp)
      | succ m =>
        rw [hrl] at h
        obtain ⟨j, _, hj⟩ := tryFrom_exists h
        obtain ⟨r, hr, hk⟩ := ih _ _ hj
        exact ⟨r, hr.trans (by simp), hk⟩

/-- All characters of the literal pieces of a pattern. -/
def litChars : List Tok → List Char
  | [] => []
  | Tok.lit l :: ts => l ++ litChars ts
  | Tok.star _ :: ts => litChars ts
  | Tok.plus _ :: ts => litChars ts

theorem matchToks_lit_mem {α : Type} {a : α} :
    ∀ (ts : List Tok) (s : List Char) (k : List Char → Option α),
      matchToks ts s k = some a → ∀ c ∈ litChars ts, c ∈ s := by
  intro ts
  induction ts with
  | nil => intro s k _ c hc; exact absurd hc (by simp [litChars])
  | cons t ts ih =>
    intro s k h c hc
    cases t with
    | lit l =>
      rw [matchToks] at h
      by_cases hl : leadsWith l s = true
      · rw [if_pos hl] at h
        rw [litChars, List.mem_append] at hc
        rcases hc with hc | hc
        · exact leadsWith_mem hl c hc
        · exact List.drop_subset l.length s (ih _ _ h c hc)
      · rw [if_neg hl] at h; exact absurd h (by simp)
    | star p =>
      rw [matchToks] at h
      obtain ⟨m, _, hm⟩ := tryFrom_exists h
      exact List.drop_subset m s (ih _ _ hm c hc)
    | plus p =>
      rw [matchToks] at h
      cases hrl : runLen p s with
      | zero => rw [hrl] at h; exact absurd h (by simp)
      | succ m =>
        rw [hrl] at h
        obtain ⟨j, _, hj⟩ := tryFrom_exists h
        exact List.drop_subset (j + 1) s (ih _ _ hj c hc)

/-! Lemmas about the substitution scan. -/

theorem subScanF_nil (m : Matcher) (fuel : Nat) : subScanF m fuel [] = [] := by
  cases fuel <;> rfl

theorem subScanF_congr_fuel (m : Matcher) :
    ∀ (f1 f2 : Nat) (t : List Char), t.length ≤ f1 → t.length ≤ f2 →
      subScanF m f1 t = subScanF m f2 t := by
  intro f1
  induction f1 with
  | zero =>
    intro f2 t h1 _
    have : t = [] := List.length_eq_zero.mp (Nat.le_zero.mp h1)
    subst this
    simp [subScanF_nil]
  | succ g ih =>
    intro f2 t h1 h2
    cases t with
    | nil => simp [subScanF_nil]
    | cons c cs =>
      cases f2 with
      | zero => exact absurd h2 (by simp)
      | succ g2 =>
        rw [subScanF, subScanF]
        cases hm : m (c :: cs) with
        | some rn =>
          obtain ⟨r, n⟩ := rn
          have hlen : (cs.drop (n - 1)).length ≤ g := by
            have := List.length_drop (n - 1) cs
            simp only [List.length_cons] at h1
            omega
          have hlen2 : (cs.drop (n - 1)).length ≤ g2 := by
            have := List.length_drop (n - 1) cs
            simp only [List.length_cons] at h2
            omega
          show r ++ subScanF m g (cs.drop (n - 1)) = r ++ subScanF m g2 (cs.drop (n - 1))
          rw [ih g2 _ hlen hlen2]
        | none =>
          have hlen : cs.length ≤ g := by simp only [List.length_cons] at h1; omega
          have hlen2 : cs.length ≤ g2 := by simp only [List.length_cons] at h2; omega
          show c :: subScanF m g cs = c :: subScanF m g2 cs
          rw [ih g2 _ hlen hlen2]

theorem subScanF_all_none (m : Matcher) :
    ∀ (fuel : Nat) (t : List Char), (∀ i, m (t.drop i) = none) →
      subScanF m fuel t = t := by
  intro fuel
  induction fuel with
  | zero => intro t _; cases t <;> rfl
  | succ g ih =>
    intro t h
    cases t with
    | nil => rfl
    | cons c cs =>
      have h0 : m (c :: cs) = none := by simpa using h 0
      rw [subScanF, h0]
      exact congrArg (c :: ·) (ih cs (fun i => h (i + 1)))

theorem subScan_all_none {m : Matcher} {t : List Char}
    (h : ∀ i, m (t.drop i) = none) : subScan m t = t :=
  subScanF_all_none m t.length t h

theorem subScanF_append_none (m : Matcher) :
    ∀ (A B : List Char) (fuel : Nat), (∀ i, i < A.length → m (A.drop i ++ B) = none) →
      A.length + B.length ≤ fuel →
      subScanF m fuel (A ++ B) = A ++ subScanF m (fuel - A.length) B := by
  intro A
  induction A with
  | nil => intro B fuel _ _; simp
  | cons a as ih =>
    intro B fuel h hf
    cases fuel with
    | zero => exact absurd hf (by simp)
    | succ g =>
      have h0 : m (a :: (as ++ B)) = none := by
        have h' := h 0 (by simp)
        rwa [List.drop_zero, List.cons_append] at h'
      rw [List.cons_append, subScanF, h0]
      have := ih B g (fun i hi => by simpa using h (i + 1) (by simpa using Nat.succ_lt_succ hi))
        (by simp only [List.length_cons] at hf; omega)
      rw [this]
      simp [List.cons_append, Nat.succ_sub_succ]

theorem subScan_full {m : Matcher} {t r : List Char} (ht : t ≠ [])
    (h : m t = some (r, t.length)) : subScan m t = r := by
  cases t with
  | nil => exact absurd rfl ht
  | cons c cs =>
    rw [subScan, List.length_cons, subScanF, h]
    simp [List.drop_eq_nil_of_le, subScanF_nil]

/-! Decomposition of a substitution pass into kept characters and edits.
This witnesses the frame property: a pass copies every character at which
the pattern does not match, in order, and rewrites exactly its matches. -/

/-- A matcher is well formed when every match consumes at least one
character and no more than the available text.  Every matcher of the two
scripts is well formed, since every pattern starts with a literal. -/
def WfM (m : Matcher) : Prop :=
  ∀ s r n, m s = some (r, n) → 1 ≤ n ∧ n ≤ s.length

/-- One piece of a pass decomposition: a kept character (outside every
match) or an edit replacing a matched source segment. -/
inductive Seg where
  | keep : Char → Seg
  | edit : List Char → List Char → Seg

/-- Source text of a piece. -/
def segSrc : Seg → List Char
  | Seg.keep c => [c]
  | Seg.edit s _ => s

/-- Output text of a piece. -/
def segDst : Seg → List Char
  | Seg.keep c => [c]
  | Seg.edit _ d => d

/-- The input text of a decomposition. -/
def joinSrc (cs : List Seg) : List Char := (cs.map segSrc).flatten

/-- The output text of a decomposition. -/
def joinDst (cs : List Seg) : List Char := (cs.map segDst).flatten

theorem joinSrc_cons (s : Seg) (cs : List Seg) :
    joinSrc (s :: cs) = segSrc s ++ joinSrc cs := by
  simp [joinSrc]

theorem joinDst_cons (s : Seg) (cs : List Seg) :
    joinDst (s :: cs) = segDst s ++ joinDst cs := by
  simp [joinDst]

/-- The decomposition produced by one substitution scan. -/
def segsF (m : Matcher) : Nat → List Char → List Seg
  | _, [] => []
  | 0, s => [Seg.edit s s]
  | fuel + 1, c :: cs =>
    match m (c :: cs) with
    | some (r, n) => Seg.edit ((c :: cs).take n) r :: segsF m fuel (cs.drop (n - 1))
    | none => Seg.keep c :: segsF m fuel cs

/-- Soundness of a decomposition with respect to the matcher: every kept
character starts no match (against exactly the text that follows it), and
every edit is a match of the matcher there, of exactly the recorded
source length, producing the recorded replacement. -/
inductive SegChain (m : Matcher) : List Seg → Prop where
  | nil : SegChain m []
  | keep (c : Char) (cs : List Seg) :
      m (c :: joinSrc cs) = none → SegChain m cs → SegChain m (Seg.keep c :: cs)
  | edit (s d : List Char) (cs : List Seg) :
      m (s ++ joinSrc cs) = some (d, s.length) → SegChain m cs →
      SegChain m (Seg.edit s d :: cs)

theorem take_cons_drop {n : Nat} (hn : 1 ≤ n) (c : Char) (cs : List Char) :
    (c :: cs).take n ++ cs.drop (n - 1) = c :: cs := by
  cases n with
  | zero => exact absurd hn (by omega)
  | succ m =>
    rw [List.take_succ_cons, Nat.succ_sub_one, List.cons_append,
      List.take_append_drop]

theorem segsF_src {m : Matcher} (hw : WfM m) :
    ∀ (fuel : Nat) (t : List Char), joinSrc (segsF m fuel t) = t := by
  intro fuel
  induction fuel with
  | zero =>
    intro t
    cases t with
    | nil => rfl
    | cons c cs => simp [segsF, joinSrc, segSrc]
  | succ g ih =>
    intro t
    cases t with
    | nil => rfl
    | cons c cs =>
      rw [segsF]
      cases hm : m (c :: cs) with
      | some rn =>
        obtain ⟨r, n⟩ := rn
        have hn := (hw _ _ _ hm).1
        show joinSrc (Seg.edit ((c :: cs).take n) r :: segsF m g (cs.drop (n - 1))) = c :: cs
        rw [joinSrc_cons, ih, segSrc]
        exact take_cons_drop hn c cs
      | none =>
        show joinSrc (Seg.keep c :: segsF m g cs) = c :: cs
        rw [joinSrc_cons, ih, segSrc]
        rfl

theorem segsF_dst (m : Matcher) :
    ∀ (fuel : Nat) (t : List Char), joinDst (segsF m fuel t) = subScanF m fuel t := by
  intro fuel
  induction fuel with
  | zero =>
    intro t
    cases t with
    | nil => rfl
    | cons c cs => simp [segsF, subScanF, joinDst, segDst]
  | succ g ih =>
    intro t
    cases t with
    | nil => rfl
    | cons c cs =>
      rw [segsF, subScanF]
      cases hm : m (c :: cs) with
      | some rn =>
        obtain ⟨r, n⟩ := rn
        show joinDst (Seg.edit ((c :: cs).take n) r :: segsF m g (cs.drop (n - 1)))
          = r ++ subScanF m g (cs.drop (n - 1))
        rw [joinDst_cons, ih, segDst]
      | none =>
        show joinDst (Seg.keep c :: segsF m g cs) = c :: subScanF m g cs
        rw [joinDst_cons, ih, segDst]
        rfl

theorem segsF_chain {m : Matcher} (hw : WfM m) :
    ∀ (fuel : Nat) (t : List Char), t.length ≤ fuel → SegChain m (segsF m fuel t) := by
  intro fuel
  induction fuel with
  | zero =>
    intro t h
    have : t = [] := List.length_eq_zero.mp (Nat.le_zero.mp h)
    subst this
    exact SegChain.nil
  | succ g ih =>
    intro t h
    cases t with
    | nil => exact SegChain.nil
    | cons c cs =>
      rw [segsF]
      cases hm : m (c :: cs) with
      | some rn =>
        obtain ⟨r, n⟩ := rn
        obtain ⟨hn1, hn2⟩ := hw _ _ _ hm
        have hb : (c :: cs).length = cs.length + 1 := rfl
        have hrest : (cs.drop (n - 1)).length ≤ g := by
          have := List.length_drop (n - 1) cs
          omega
        refine SegChain.edit _ _ _ ?_ (ih _ hrest)
        rw [segsF_src hw, take_cons_drop hn1 c cs, hm]
        have : ((c :: cs).take n).length = n := by
          rw [List.length_take]
          simp only [List.length_cons]
          omega
        rw [this]
      | none =>
        have hrest : cs.length ≤ g := by simp only [List.length_cons] at h; omega
        refine SegChain.keep _ _ ?_ (ih _ hrest)
        rw [segsF_src hw]
        exact hm

/-- A pass decomposition from input t to output u: a sound chain of kept
characters and matched edits whose sources join to t and whose outputs
join to u. -/
def PassDecomp (m : Matcher) (t u : List Char) : Prop :=
  ∃ cs : List Seg, SegChain m cs ∧ joinSrc cs = t ∧ joinDst cs = u

theorem passDecomp_subScan {m : Matcher} (hw : WfM m) (t : List Char) :
    PassDecomp m t (subScan m t) :=
  ⟨segsF m t.length t, segsF_chain hw _ _ (Nat.le_refl _), segsF_src hw _ _,
   segsF_dst m _ _⟩

/-! Well-formedness of every matcher used by the two scripts. -/

theorem wfM_mLit {p r : List Char} (hp : p ≠ []) : WfM (mLit p r) := by
  intro s r' n h
  rw [mLit] at h
  by_cases hl : leadsWith p s = true
  · rw [if_pos hl] at h
    have hn : n = p.length := (congrArg Prod.snd (Option.some_injective _ h)).symm
    subst hn
    refine ⟨?_, leadsWith_length hl⟩
    cases p with
    | nil => exact absurd rfl hp
    | cons a as => simp
  · rw [if_neg hl] at h
    exact absurd h (by simp)

theorem wfM_mTok {c0 : Char} {l : List Char} {ts : List Tok} {repl : List Char} :
    WfM (mTok (Tok.lit (c0 :: l) :: ts) repl) := by
  intro s r' n h
  rw [mTok] at h
  cases hmt : matchToks (Tok.lit (c0 :: l) :: ts) s (fun r => some (s.length - r.length)) with
  | none => rw [hmt] at h; exact absurd h (by simp)
  | some n0 =>
    rw [hmt] at h
    have hn : n = n0 := (congrArg Prod.snd (Option.some_injective _ h)).symm
    subst hn
    rw [matchToks] at hmt
    by_cases hl : leadsWith (c0 :: l) s = true
    · rw [if_pos hl] at hmt
      obtain ⟨rest, hrest, hk⟩ := matchToks_k_bound _ _ _ hmt
      have hlen : (c0 :: l).length ≤ s.length := leadsWith_length hl
      have hrl : rest.length ≤ s.length - (c0 :: l).length := by
        have := List.length_drop (c0 :: l).length s
        omega
      have hval : n = s.length - rest.length := by
        have := Option.some_injective _ hk
        omega
      have hcl : (c0 :: l).length = l.length + 1 := rfl
      constructor <;> omega
    · rw [if_neg hl] at hmt
      exact absurd hmt (by simp)

theorem wfM_mDup1 (d : Char) : WfM (mDup1 d) := wfM_mTok

theorem wfM_mDup2 (d : Char) : WfM (mDup2 d) := wfM_mTok

theorem wfM_mFixGen (meth : List Char) (slots : List Tok) :
    WfM (mFixGen meth slots) := by
  intro s r' n h
  rw [mFixGen] at h
  by_cases h1 : (leadsWith pcUser s && (subjCh s == '1' || subjCh s == '2')
      && leadsWith meth (afterSubj s)) = true
  · rw [if_pos h1] at h
    cases hmt : matchToks slots ((afterSubj s).drop meth.length)
        (fun r4 => matchToks closeToks r4 (fun r5 => some (r4.length, r5.length))) with
    | none => rw [hmt] at h; exact absurd h (by simp)
    | some p =>
      obtain ⟨l4, l5⟩ := p
      rw [hmt] at h
      have hn : n = s.length - l5 := (congrArg Prod.snd (Option.some_injective _ h)).symm
      subst hn
      obtain ⟨r4, hr4, hk⟩ := matchToks_k_bound _ _ _ hmt
      obtain ⟨r5, hr5, hk2⟩ := matchToks_k_bound _ _ _ hk
      have hl5 : r5.length = l5 := congrArg Prod.snd (Option.some_injective _ hk2)
      have hpcs : pcUser.length ≤ s.length :=
        leadsWith_length (by simp only [Bool.and_eq_true] at h1; exact h1.1.1)
      have hsub : (afterSubj s).length = s.length - pcUser.length - 1 := by
        simp [afterSubj]
        omega
      have hd2 : ((afterSubj s).drop meth.length).length
          = (afterSubj s).length - meth.length := by simp
      have hpc : pcUser.length = 17 := rfl
      constructor <;> omega
  · rw [if_neg h1] at h
    exact absurd h (by simp)

theorem wfM_pattern : WfM pattern := wfM_mFixGen methAdd slotsAdd

theorem wfM_pattern2 : WfM pattern2 := wfM_mFixGen methRem slotsRem

theorem wfM_mLit1 : WfM (mLit litPat1 litRep1) := wfM_mLit (by decide)

theorem wfM_mLit2 : WfM (mLit litPat2 litRep2) := wfM_mLit (by decide)

theorem wfM_mLit3 : WfM (mLit litPat3 litRep3) := wfM_mLit (by decide)

/-! Claim theorems. -/

/-- C1, counterexample: the full normalizer is not idempotent on every
input.  On the text consisting of a comma, a line break, and a duplicated
user1.address before a closing parenthesis and semicolon, the first
semicolon-anchored substitution removes one trailing address per run, so a
second application changes the text again. -/
theorem c1_counterexample :
    normalizeText (normalizeText ((",\n user1.address,\n user1.address);").data))
      ≠ normalizeText (((",\n user1.address,\n user1.address);").data)) := by decide

/-- C1, amended: idempotence does not hold for arbitrary input; it does
hold on the intended call sites, such as the spec scenario call terminated
by a semicolon, where the second run first strips the just-inserted
trailing address argument (semicolon-anchored pass) and then re-inserts
it, reproducing the same output. -/
theorem c1_amended_scenario_idempotence :
    normalizeText (normalizeText
        (("pool.connect(user1).addLiquidity(100, 200, 0, 0, deadline);").data))
      = normalizeText
        (("pool.connect(user1).addLiquidity(100, 200, 0, 0, deadline);").data) := by
  decide

/-- C2, counterexample: a call that already has the correct number of
arguments (six slots for addLiquidity) is still matched by the insertion
pattern, because its final slot accepts commas; the call does not appear
unchanged in the output of the normalizer. -/
theorem c2_counterexample :
    normalizeText (("pool.connect(user1).addLiquidity(1, 2, 3, 4, 5, user1.address)").data)
      ≠ ("pool.connect(user1).addLiquidity(1, 2, 3, 4, 5, user1.address)").data := by
  decide

/-- C2, amended: an already-correct call passes unchanged through the
duplicate-removal and exact-literal passes of cleanup.py, but the
insertion passes of fix_test.py still match it, since their final slot
admits commas, and append a duplicate trailing address argument; this
holds for both recognized call kinds. -/
theorem c2_amended_insertion_rematches :
    cleanup_py (("pool.connect(user1).addLiquidity(1, 2, 3, 4, 5, user1.address)").data)
        = ("pool.connect(user1).addLiquidity(1, 2, 3, 4, 5, user1.address)").data
    ∧ fix_test_py (("pool.connect(user1).addLiquidity(1, 2, 3, 4, 5, user1.address)").data)
        = ("pool.connect(user1).addLiquidity(1, 2, 3, 4, 5, user1.address,\n        user1.address)").data
    ∧ fix_test_py (("pool.connect(user1).removeLiquidity(1, 2, 3, 4, user1.address)").data)
        = ("pool.connect(user1).removeLiquidity(1, 2, 3, 4, user1.address,\n        user1.address)").data := by
  exact ⟨by decide, by decide, by decide⟩

/-- C4, counterexample: a call whose text between the parentheses contains
more commas than the fixed arity is still matched by the insertion
pattern, because the final slot, matching anything but a closing
parenthesis, can contain commas; the pass rewrites the call instead of
leaving it alone. -/
theorem c4_counterexample :
    subScan pattern (("pool.connect(user1).addLiquidity(1, 2, 3, 4, 5, 6)").data)
      ≠ ("pool.connect(user1).addLiquidity(1, 2, 3, 4, 5, 6)").data := by decide

/-- C8: the transformation of each script, and of the chained normalizer,
is a pure function of the input text alone: equal input texts give equal
output texts, with no dependence on any external state (the embedding of
the scripts is a function of the text only). -/
theorem c8_pure_function (t u : List Char) (h : t = u) :
    cleanup_py t = cleanup_py u ∧ fix_test_py t = fix_test_py u ∧
      normalizeText t = normalizeText u := by
  subst h
  exact ⟨rfl, rfl, rfl⟩

/-- Witness for C8 at a concrete input. -/
theorem c8_pure_function_witness :
    ("a(b, c);").data = ("a(b, c);").data ∧
      (cleanup_py (("a(b, c);").data) = cleanup_py (("a(b, c);").data) ∧
       fix_test_py (("a(b, c);").data) = fix_test_py (("a(b, c);").data) ∧
       normalizeText (("a(b, c);").data) = normalizeText (("a(b, c);").data)) :=
  ⟨rfl, c8_pure_function (("a(b, c);").data) (("a(b, c);").data) rfl⟩

/-- C7: non-interference, frame property.  The normalizer output arises by
chaining one sound decomposition per pass, in the order the passes run:
each decomposition splits its input text into single kept characters, at
which the pass pattern does not match (against the exact text following
them), and edit segments that are matches of the pass pattern; kept
characters appear byte-for-byte, in order, in the output of their pass.
Text outside every match of every pass is therefore carried through every
stage unchanged. -/
theorem c7_frame_chain (t : List Char) :
    ∃ u1 u2 u3 u4 u5 u6 u7 u8 : List Char,
      PassDecomp (mDup1 '1') t u1 ∧
      PassDecomp (mDup1 '2') u1 u2 ∧
      PassDecomp (mDup2 '1') u2 u3 ∧
      PassDecomp (mDup2 '2') u3 u4 ∧
      PassDecomp (mLit litPat1 litRep1) u4 u5 ∧
      PassDecomp (mLit litPat2 litRep2) u5 u6 ∧
      PassDecomp (mLit litPat3 litRep3) u6 u7 ∧
      PassDecomp pattern u7 u8 ∧
      PassDecomp pattern2 u8 (normalizeText t) :=
  ⟨_, _, _, _, _, _, _, _,
    passDecomp_subScan (wfM_mDup1 '1') t,
    passDecomp_subScan (wfM_mDup1 '2') _,
    passDecomp_subScan (wfM_mDup2 '1') _,
    passDecomp_subScan (wfM_mDup2 '2') _,
    passDecomp_subScan wfM_mLit1 _,
    passDecomp_subScan wfM_mLit2 _,
    passDecomp_subScan wfM_mLit3 _,
    passDecomp_subScan wfM_pattern _,
    passDecomp_subScan wfM_pattern2 _⟩

/-- A decomposition for one exact-literal replacement: a sound chain whose
edit segments are all exactly the bad literal rewritten to its good
counterpart, and whose kept characters start no occurrence of the bad
literal in the text that follows them. -/
def ReplDecomp (p r : List Char) (t u : List Char) : Prop :=
  ∃ cs : List Seg, SegChain (mLit p r) cs ∧ joinSrc cs = t ∧ joinDst cs = u ∧
    (∀ s d : List Char, Seg.edit s d ∈ cs → s = p ∧ d = r)

theorem segChain_mLit_edits {p r : List Char} :
    ∀ {cs : List Seg}, SegChain (mLit p r) cs →
      ∀ s d : List Char, Seg.edit s d ∈ cs → s = p ∧ d = r := by
  intro cs h
  induction h with
  | nil => intro s d hm; exact absurd hm (by simp)
  | keep c cs hm hc ih =>
    intro s d hmem
    rcases List.mem_cons.mp hmem with heq | hmem2
    · exact absurd heq (by simp)
    · exact ih s d hmem2
  | edit s0 d0 cs hm hc ih =>
    intro s d hmem
    rcases List.mem_cons.mp hmem with heq | hmem2
    · injection heq with hs hd
      subst hs
      subst hd
      rw [mLit] at hm
      by_cases hl : leadsWith p (s ++ joinSrc cs) = true
      · rw [if_pos hl] at hm
        have hpair := Option.some_injective _ hm
        have hdr : d = r := (congrArg Prod.fst hpair).symm
        have hn : p.length = s.length := congrArg Prod.snd hpair
        have hts := leadsWith_take hl
        rw [hn, List.take_left] at hts
        exact ⟨hts, hdr⟩
      · rw [if_neg hl] at hm
        exact absurd hm (by simp)
    · exact ih s d hmem2

theorem replDecomp_replaceAll {p r : List Char} (hp : p ≠ []) (t : List Char) :
    ReplDecomp p r t (replaceAll p r t) := by
  obtain ⟨cs, hchain, hsrc, hdst⟩ := passDecomp_subScan (wfM_mLit (r := r) hp) t
  exact ⟨cs, hchain, hsrc, hdst, segChain_mLit_edits hchain⟩

/-- C6: literal substitution exactness.  The exact-literal replacement pass
of cleanup.py decomposes, stage by stage in source order, into chains in
which every edit replaces precisely one verbatim occurrence of the
known-bad literal by its exact known-good counterpart, and every other
character is kept unchanged, in order, with no occurrence of the bad
literal starting at it. -/
theorem c6_literal_substitution (t : List Char) :
    ∃ u1 u2 : List Char,
      ReplDecomp litPat1 litRep1 t u1 ∧
      ReplDecomp litPat2 litRep2 u1 u2 ∧
      ReplDecomp litPat3 litRep3 u2 (litPass t) :=
  ⟨_, _, replDecomp_replaceAll (by decide) t,
    replDecomp_replaceAll (by decide) _,
    replDecomp_replaceAll (by decide) _⟩

theorem leadsWith_append_split {a b s : List Char} :
    leadsWith (a ++ b) s = (leadsWith a s && leadsWith b (s.drop a.length)) := by
  induction a generalizing s with
  | nil => simp [leadsWith]
  | cons x xs ih =>
    cases s with
    | nil => simp [leadsWith]
    | cons y ys => simp [leadsWith, ih, Bool.and_assoc]

/-- A successful insertion-pattern match can only start at a receiver text
that is exactly pool.connect(user1) or pool.connect(user2). -/
theorem mFixGen_some_receiver {meth : List Char} {slots : List Tok}
    {s r : List Char} {n : Nat} (hm : ∃ mr, meth = ')' :: mr)
    (h : mFixGen meth slots s = some (r, n)) :
    leadsWith (("pool.connect(user1)").data) s = true ∨
    leadsWith (("pool.connect(user2)").data) s = true := by
  obtain ⟨mr, hmr⟩ := hm
  rw [mFixGen] at h
  by_cases hg : (leadsWith pcUser s && (subjCh s == '1' || subjCh s == '2')
      && leadsWith meth (afterSubj s)) = true
  · rw [if_pos hg] at h
    simp only [Bool.and_eq_true, Bool.or_eq_true, beq_iff_eq] at hg
    obtain ⟨⟨hpc, hsubj⟩, hmeth⟩ := hg
    have hne : s.drop pcUser.length ≠ [] := by
      intro hnil
      rw [subjCh, hnil] at hsubj
      rcases hsubj with h1 | h2
      · exact absurd h1 (by decide)
      · exact absurd h2 (by decide)
    obtain ⟨c, cs, hcs⟩ := List.exists_cons_of_ne_nil hne
    have hc : subjCh s = c := by rw [subjCh, hcs]; rfl
    have hAfter : afterSubj s = cs := by rw [afterSubj, hcs]; rfl
    have hcl : ∃ cs2, cs = ')' :: cs2 := by
      rw [hAfter, hmr] at hmeth
      cases cs with
      | nil => simp [leadsWith] at hmeth
      | cons z zs =>
        simp only [leadsWith, Bool.and_eq_true, beq_iff_eq] at hmeth
        exact ⟨zs, by rw [hmeth.1]⟩
    obtain ⟨cs2, hcs2⟩ := hcl
    rcases hsubj with h1 | h2
    · left
      have hrepr : ("pool.connect(user1)").data = pcUser ++ ['1', ')'] := by decide
      rw [hrepr, leadsWith_append_split, hpc, Bool.true_and, hcs, hcs2]
      have hc1 : c = '1' := hc.symm.trans h1
      rw [hc1]
      simp [leadsWith]
    · right
      have hrepr : ("pool.connect(user2)").data = pcUser ++ ['2', ')'] := by decide
      rw [hrepr, leadsWith_append_split, hpc, Bool.true_and, hcs, hcs2]
      have hc2 : c = '2' := hc.symm.trans h2
      rw [hc2]
      simp [leadsWith]
  · rw [if_neg hg] at h
    exact absurd h (by simp)

/-- C10: the insertion passes of fix_test.py only consider calls whose
receiver text is exactly pool.connect(user1) or pool.connect(user2); on a
text in which neither receiver occurs, both passes change nothing, so a
call on any other receiver is never modified by fix_test.py. -/
theorem c10_receiver_scope (t : List Char)
    (h1 : ∀ i, i < t.length → leadsWith (("pool.connect(user1)").data) (t.drop i) = false)
    (h2 : ∀ i, i < t.length → leadsWith (("pool.connect(user2)").data) (t.drop i) = false) :
    fix_test_py t = t := by
  have hnone : ∀ (meth : List Char) (slots : List Tok), (∃ mr, meth = ')' :: mr) →
      ∀ i, mFixGen meth slots (t.drop i) = none := by
    intro meth slots hmth i
    by_cases hlt : i < t.length
    · cases hres : mFixGen meth slots (t.drop i) with
      | none => rfl
      | some p =>
        obtain ⟨r, n⟩ := p
        rcases mFixGen_some_receiver hmth hres with hl | hl
        · rw [h1 i hlt] at hl; exact absurd hl (by simp)
        · rw [h2 i hlt] at hl; exact absurd hl (by simp)
    · have hnil : t.drop i = [] := List.drop_eq_nil_of_le (by omega)
      rw [hnil, mFixGen]
      have hpc : leadsWith pcUser [] = false := by decide
      simp [hpc]
  have hp1 : subScan pattern t = t :=
    subScan_all_none (hnone methAdd slotsAdd ⟨(".addLiquidity(").data, by decide⟩)
  have hp2 : subScan pattern2 t = t :=
    subScan_all_none (hnone methRem slotsRem ⟨(".removeLiquidity(").data, by decide⟩)
  show subScan pattern2 (subScan pattern t) = t
  rw [hp1, hp2]

/-- Witness for C10 at a call on receiver pool.connect(user3). -/
theorem c10_receiver_scope_witness :
    (∀ i, i < (("pool.connect(user3).addLiquidity(1, 2, 3, 4, 5)").data).length →
        leadsWith (("pool.connect(user1)").data)
          ((("pool.connect(user3).addLiquidity(1, 2, 3, 4, 5)").data).drop i) = false) ∧
    (∀ i, i < (("pool.connect(user3).addLiquidity(1, 2, 3, 4, 5)").data).length →
        leadsWith (("pool.connect(user2)").data)
          ((("pool.connect(user3).addLiquidity(1, 2, 3, 4, 5)").data).drop i) = false) ∧
    fix_test_py (("pool.connect(user3).addLiquidity(1, 2, 3, 4, 5)").data)
      = ("pool.connect(user3).addLiquidity(1, 2, 3, 4, 5)").data :=
  ⟨by decide, by decide, c10_receiver_scope _ (by decide) (by decide)⟩

/-! Symbolic runs of the insertion pattern on a canonical call shape. -/

/-- An argument slot usable before a comma: nonempty, first character not
whitespace, no comma inside. -/
def ncSlot (a : List Char) : Bool :=
  match a with
  | [] => false
  | c :: _ => !isWs c && a.all (fun x => !(x == ','))

/-- An argument slot usable as the final slot: nonempty, first character
not whitespace, no closing parenthesis inside. -/
def npSlot (a : List Char) : Bool :=
  match a with
  | [] => false
  | c :: _ => !isWs c && a.all (fun x => !(x == ')'))

theorem ncSlot_shape {a : List Char} (h : ncSlot a = true) :
    ∃ c cs, a = c :: cs ∧ isWs c = false ∧ ∀ x ∈ a, ccMem Cls.nc x = true := by
  cases a with
  | nil => exact absurd h (by simp [ncSlot])
  | cons c cs =>
    simp only [ncSlot, Bool.and_eq_true, List.all_eq_true, Bool.not_eq_true'] at h
    refine ⟨c, cs, rfl, h.1, ?_⟩
    intro x hx
    simp [ccMem, h.2 x hx]

theorem npSlot_shape {a : List Char} (h : npSlot a = true) :
    ∃ c cs, a = c :: cs ∧ isWs c = false ∧ ∀ x ∈ a, ccMem Cls.np x = true := by
  cases a with
  | nil => exact absurd h (by simp [npSlot])
  | cons c cs =>
    simp only [npSlot, Bool.and_eq_true, List.all_eq_true, Bool.not_eq_true'] at h
    refine ⟨c, cs, rfl, h.1, ?_⟩
    intro x hx
    simp [ccMem, h.2 x hx]

theorem runLen_ws_head {a rest : List Char}
    (hsh : ∃ c cs, a = c :: cs ∧ isWs c = false) :
    runLen Cls.ws (a ++ rest) = 0 := by
  obtain ⟨c, cs, rfl, hc⟩ := hsh
  exact runLen_cons_neg (by simp [ccMem, hc])

theorem star_ws_skip {α : Type} {ts : List Tok} {k : List Char → Option α}
    {v : α} {a rest : List Char} (hsh : ∃ c cs, a = c :: cs ∧ isWs c = false)
    (h : matchToks ts (a ++ rest) k = some v) :
    matchToks (Tok.star Cls.ws :: ts) (a ++ rest) k = some v := by
  rw [matchToks_star_zero _ _ (runLen_ws_head hsh)]
  exact h

theorem star_ws_space {α : Type} {ts : List Tok} {k : List Char → Option α}
    {v : α} {rest : List Char} (h0 : runLen Cls.ws rest = 0)
    (h : matchToks ts rest k = some v) :
    matchToks (Tok.star Cls.ws :: ts) (' ' :: rest) k = some v :=
  matchToks_star_chunk (w := [' ']) (p := Cls.ws)
    (by intro c hc; simp at hc; subst hc; decide) h0 h

theorem slot_comma_step {α : Type} {ts : List Tok} {k : List Char → Option α}
    {v : α} {a rest : List Char} (ha : ncSlot a = true)
    (h : matchToks ts rest k = some v) :
    matchToks (Tok.plus Cls.nc :: Tok.lit [','] :: ts) (a ++ ',' :: rest) k = some v := by
  obtain ⟨c, cs, rfl, hc, hall⟩ := ncSlot_shape ha
  refine matchToks_plus_chunk hall (by simp) (runLen_cons_neg (by decide)) ?_
  exact (matchToks_lit_chunk [','] rest ts k).trans h

theorem slot_np_step {α : Type} {ts : List Tok} {k : List Char → Option α}
    {v : α} {a rest : List Char} (ha : npSlot a = true)
    (h0 : runLen Cls.np rest = 0) (h : matchToks ts rest k = some v) :
    matchToks (Tok.plus Cls.np :: ts) (a ++ rest) k = some v := by
  obtain ⟨c, cs, rfl, hc, hall⟩ := npSlot_shape ha
  exact matchToks_plus_chunk hall (by simp) h0 h

/-- The continuation used by the insertion matcher: the third group,
optional whitespace then the closing parenthesis, then the lengths of the
remaining texts. -/
def contK : List Char → Option (Nat × Nat) := fun r4 =>
  matchToks closeToks r4 (fun r5 => some (r4.length, r5.length))

/-- A full symbolic run of the addLiquidity slot pieces on a canonical
five-slot argument list followed by the closing parenthesis: the slots are
consumed exactly, the closer is group three, and one character of closer
remains for group boundaries. -/
theorem matchToks_slotsAdd_run {a1 a2 a3 a4 a5 : List Char}
    (h1 : ncSlot a1 = true) (h2 : ncSlot a2 = true) (h3 : ncSlot a3 = true)
    (h4 : ncSlot a4 = true) (h5 : npSlot a5 = true) :
    matchToks slotsAdd
      (a1 ++ ',' :: ' ' :: (a2 ++ ',' :: ' ' :: (a3 ++ ',' :: ' ' :: (a4 ++ ',' :: ' ' :: (a5 ++ [')'])))))
      contK = some (1, 0) := by
  have g0 : matchToks [] [')'] contK = some (1, 0) := by decide
  have g5 : matchToks [Tok.plus Cls.np] (a5 ++ [')']) contK = some (1, 0) :=
    slot_np_step h5 (by decide) g0
  have g5s : matchToks [Tok.star Cls.ws, Tok.plus Cls.np]
      (' ' :: (a5 ++ [')'])) contK = some (1, 0) :=
    star_ws_space (runLen_ws_head ((npSlot_shape h5).imp
      (fun c hc => hc.imp (fun cs hcs => ⟨hcs.1, hcs.2.1⟩)))) g5
  have g4 : matchToks [Tok.plus Cls.nc, Tok.lit [','], Tok.star Cls.ws, Tok.plus Cls.np]
      (a4 ++ ',' :: ' ' :: (a5 ++ [')'])) contK = some (1, 0) :=
    slot_comma_step h4 g5s
  have g4s : matchToks [Tok.star Cls.ws, Tok.plus Cls.nc, Tok.lit [','], Tok.star Cls.ws,
      Tok.plus Cls.np] (' ' :: (a4 ++ ',' :: ' ' :: (a5 ++ [')']))) contK = some (1, 0) :=
    star_ws_space (runLen_ws_head ((ncSlot_shape h4).imp
      (fun c hc => hc.imp (fun cs hcs => ⟨hcs.1, hcs.2.1⟩)))) g4
  have g3 : matchToks [Tok.plus Cls.nc, Tok.lit [','], Tok.star Cls.ws, Tok.plus Cls.nc,
      Tok.lit [','], Tok.star Cls.ws, Tok.plus Cls.np]
      (a3 ++ ',' :: ' ' :: (a4 ++ ',' :: ' ' :: (a5 ++ [')']))) contK = some (1, 0) :=
    slot_comma_step h3 g4s
  have g3s : matchToks [Tok.star Cls.ws, Tok.plus Cls.nc, Tok.lit [','], Tok.star Cls.ws,
      Tok.plus Cls.nc, Tok.lit [','], Tok.star Cls.ws, Tok.plus Cls.np]
      (' ' :: (a3 ++ ',' :: ' ' :: (a4 ++ ',' :: ' ' :: (a5 ++ [')'])))) contK = some (1, 0) :=
    star_ws_space (runLen_ws_head ((ncSlot_shape h3).imp
      (fun c hc => hc.imp (fun cs hcs => ⟨hcs.1, hcs.2.1⟩)))) g3
  have g2 : matchToks [Tok.plus Cls.nc, Tok.lit [','], Tok.star Cls.ws, Tok.plus Cls.nc,
      Tok.lit [','], Tok.star Cls.ws, Tok.plus Cls.nc, Tok.lit [','], Tok.star Cls.ws,
      Tok.plus Cls.np]
      (a2 ++ ',' :: ' ' :: (a3 ++ ',' :: ' ' :: (a4 ++ ',' :: ' ' :: (a5 ++ [')'])))) contK
      = some (1, 0) :=
    slot_comma_step h2 g3s
  have g2s : matchToks [Tok.star Cls.ws, Tok.plus Cls.nc, Tok.lit [','], Tok.star Cls.ws,
      Tok.plus Cls.nc, Tok.lit [','], Tok.star Cls.ws, Tok.plus Cls.nc, Tok.lit [','],
      Tok.star Cls.ws, Tok.plus Cls.np]
      (' ' :: (a2 ++ ',' :: ' ' :: (a3 ++ ',' :: ' ' :: (a4 ++ ',' :: ' ' :: (a5 ++ [')'])))))
      contK = some (1, 0) :=
    star_ws_space (runLen_ws_head ((ncSlot_shape h2).imp
      (fun c hc => hc.imp (fun cs hcs => ⟨hcs.1, hcs.2.1⟩)))) g2
  have g1 : matchToks [Tok.plus Cls.nc, Tok.lit [','], Tok.star Cls.ws, Tok.plus Cls.nc,
      Tok.lit [','], Tok.star Cls.ws, Tok.plus Cls.nc, Tok.lit [','], Tok.star Cls.ws,
      Tok.plus Cls.nc, Tok.lit [','], Tok.star Cls.ws, Tok.plus Cls.np]
      (a1 ++ ',' :: ' ' :: (a2 ++ ',' :: ' ' :: (a3 ++ ',' :: ' ' :: (a4 ++ ',' :: ' ' ::
        (a5 ++ [')']))))) contK = some (1, 0) :=
    slot_comma_step h1 g2s
  exact star_ws_skip ((ncSlot_shape h1).imp
    (fun c hc => hc.imp (fun cs hcs => ⟨hcs.1, hcs.2.1⟩))) g1

/-- Value of the insertion matcher at a text that is exactly a recognized
receiver, the method, and an argument region ending at the closing
parenthesis on which the slot pieces succeed with the closer as group
three: the matcher consumes the whole text and produces the replacement of
fix_test.py. -/
theorem mFixGen_at_shape (meth : List Char) (slots : List Tok) (d : Char)
    (Y : List Char) (hd : d = '1' ∨ d = '2')
    (hmt : matchToks slots (Y ++ [')']) contK = some (1, 0)) :
    mFixGen meth slots (pcUser ++ d :: (meth ++ (Y ++ [')'])))
      = some (replace_func d (pcUser ++ d :: (meth ++ Y)) [')'],
          (pcUser ++ d :: (meth ++ (Y ++ [')']))).length) := by
  set s := pcUser ++ d :: (meth ++ (Y ++ [')'])) with hs
  have hdrop : s.drop pcUser.length = d :: (meth ++ (Y ++ [')'])) := by
    rw [hs]
    exact List.drop_left _ _
  have hsubj : subjCh s = d := by
    rw [subjCh, hdrop]
    rfl
  have hafter : afterSubj s = meth ++ (Y ++ [')']) := by
    rw [afterSubj, hdrop]
    rfl
  have hguard : (leadsWith pcUser s && (subjCh s == '1' || subjCh s == '2')
      && leadsWith meth (afterSubj s)) = true := by
    rw [hsubj, hafter, hs]
    rcases hd with rfl | rfl <;> simp [leadsWith_append]
  have hmt2 : matchToks slots ((afterSubj s).drop meth.length)
      (fun r4 => matchToks closeToks r4 (fun r5 => some (r4.length, r5.length)))
      = some (1, 0) := by
    rw [hafter, List.drop_left]
    exact hmt
  have hsY : s = (pcUser ++ d :: (meth ++ Y)) ++ [')'] := by
    rw [hs]
    simp [List.append_assoc]
  have hlen : s.length = (pcUser ++ d :: (meth ++ Y)).length + 1 := by
    rw [hsY]
    simp
    omega
  have htake1 : s.take (s.length - 1) = pcUser ++ d :: (meth ++ Y) := by
    rw [hlen, Nat.add_sub_cancel, hsY]
    exact List.take_left _ _
  have htake0 : s.take (s.length - 0) = s := by
    rw [Nat.sub_zero]
    exact List.take_length s
  have hdrop1 : s.drop (s.length - 1) = [')'] := by
    rw [hlen, Nat.add_sub_cancel, hsY]
    exact List.drop_left _ _
  show mFixGen meth slots s = some (replace_func d (pcUser ++ d :: (meth ++ Y)) [')'], s.length)
  simp only [mFixGen]
  rw [if_pos hguard, hmt2]
  show some (replace_func (subjCh s) (s.take (s.length - 1))
        ((s.take (s.length - 0)).drop (s.length - 1)), s.length - 0)
      = some (replace_func d (pcUser ++ d :: (meth ++ Y)) [')'], s.length)
  rw [hsubj, htake1, htake0, hdrop1, Nat.sub_zero]

/-- The insertion pass on a text that is exactly one recognized call whose
argument region matches the slot pieces: the pass rewrites the whole text,
appending a comma, a line break, eight spaces and the subject address
before the closing parenthesis. -/
theorem subScan_mFixGen_call (meth : List Char) (slots : List Tok) (d : Char)
    (Y : List Char) (hd : d = '1' ∨ d = '2')
    (hmt : matchToks slots (Y ++ [')']) contK = some (1, 0)) :
    subScan (mFixGen meth slots) (pcUser ++ d :: (meth ++ (Y ++ [')'])))
      = pcUser ++ d :: (meth ++ (Y ++
          ((",\n        user").data ++ d :: ((".address").data ++ [')'])))) := by
  have hne : (pcUser ++ d :: (meth ++ (Y ++ [')']))) ≠ [] := by
    intro hc
    rw [List.append_eq_nil] at hc
    exact absurd hc.1 (by decide)
  have h := subScan_full hne (mFixGen_at_shape meth slots d Y hd hmt)
  rw [h, replace_func]
  simp [List.append_assoc]

/-- C3: arity correction.  For every addLiquidity call on pool.connect(d)
with d the first or second actor and exactly five argument slots, the
insertion pass produces a call with exactly six argument slots, the sixth
being the subject address of the identifier variant d that opened the
call. -/
theorem c3_arity_correction (d : Char) (a1 a2 a3 a4 a5 : List Char)
    (hd : d = '1' ∨ d = '2')
    (h1 : ncSlot a1 = true) (h2 : ncSlot a2 = true) (h3 : ncSlot a3 = true)
    (h4 : ncSlot a4 = true) (h5c : ncSlot a5 = true) (h5 : npSlot a5 = true) :
    subScan pattern
        (pcUser ++ d :: (methAdd ++ (a1 ++ ',' :: ' ' :: (a2 ++ ',' :: ' ' ::
          (a3 ++ ',' :: ' ' :: (a4 ++ ',' :: ' ' :: (a5 ++ [')'])))))))
      = pcUser ++ d :: (methAdd ++ (a1 ++ ',' :: ' ' :: (a2 ++ ',' :: ' ' ::
          (a3 ++ ',' :: ' ' :: (a4 ++ ',' :: ' ' :: (a5 ++
            ((",\n        user").data ++ d :: ((".address").data ++ [')'])))))))) := by
  have hmt : matchToks slotsAdd
      ((a1 ++ ',' :: ' ' :: (a2 ++ ',' :: ' ' :: (a3 ++ ',' :: ' ' ::
        (a4 ++ ',' :: ' ' :: a5)))) ++ [')']) contK = some (1, 0) := by
    have h := matchToks_slotsAdd_run h1 h2 h3 h4 h5
    simpa [List.append_assoc] using h
  have h := subScan_mFixGen_call methAdd slotsAdd d
    (a1 ++ ',' :: ' ' :: (a2 ++ ',' :: ' ' :: (a3 ++ ',' :: ' ' ::
      (a4 ++ ',' :: ' ' :: a5)))) hd hmt
  simpa [List.append_assoc] using h

/-- Witness for C3 on the scenario call with subject user1 and arguments
100, 200, 0, 0, deadline. -/
theorem c3_arity_correction_witness :
    ('1' = '1' ∨ '1' = '2') ∧
    ncSlot (("100").data) = true ∧ ncSlot (("200").data) = true ∧
    ncSlot (("0").data) = true ∧ ncSlot (("deadline").data) = true ∧
    npSlot (("deadline").data) = true ∧
    subScan pattern
        (pcUser ++ '1' :: (methAdd ++ ((("100").data) ++ ',' :: ' ' ::
          ((("200").data) ++ ',' :: ' ' :: ((("0").data) ++ ',' :: ' ' ::
          ((("0").data) ++ ',' :: ' ' :: ((("deadline").data) ++ [')'])))))))
      = pcUser ++ '1' :: (methAdd ++ ((("100").data) ++ ',' :: ' ' ::
          ((("200").data) ++ ',' :: ' ' :: ((("0").data) ++ ',' :: ' ' ::
          ((("0").data) ++ ',' :: ' ' :: ((("deadline").data) ++
            ((",\n        user").data ++ '1' :: ((".address").data ++ [')'])))))))) :=
  ⟨Or.inl rfl, by decide, by decide, by decide, by decide, by decide,
    c3_arity_correction '1' (("100").data) (("200").data) (("0").data)
      (("0").data) (("deadline").data) (Or.inl rfl) (by decide) (by decide)
      (by decide) (by decide) (by decide) (by decide)⟩

theorem npSlot_comma_append {b1 b2 : List Char} (h1 : npSlot b1 = true)
    (h2 : npSlot b2 = true) : npSlot (b1 ++ ',' :: ' ' :: b2) = true := by
  obtain ⟨c, cs, rfl, hc, hall⟩ := npSlot_shape h1
  obtain ⟨c2, cs2, hb2, hc2, hall2⟩ := npSlot_shape h2
  show npSlot (c :: (cs ++ ',' :: ' ' :: b2)) = true
  simp only [npSlot, Bool.and_eq_true, List.all_eq_true]
  constructor
  · simp [hc]
  · intro x hx
    simp only [List.mem_cons, List.mem_append] at hx
    rcases hx with rfl | hx | rfl | rfl | hx
    · exact hall x (List.mem_cons_self _ _)
    · exact hall x (List.mem_cons_of_mem _ hx)
    · decide
    · decide
    · exact hall2 x hx

/-- C4, amended: the final slot of the insertion pattern matches everything
up to the next closing parenthesis, commas included; a call whose argument
text between the parentheses has one more comma-separated slot than the
fixed arity is still matched, and gains a further trailing address
argument. -/
theorem c4_amended_last_slot_commas (d : Char) (a1 a2 a3 a4 b1 b2 : List Char)
    (hd : d = '1' ∨ d = '2')
    (h1 : ncSlot a1 = true) (h2 : ncSlot a2 = true) (h3 : ncSlot a3 = true)
    (h4 : ncSlot a4 = true) (hb1 : npSlot b1 = true) (hb2 : npSlot b2 = true) :
    subScan pattern
        (pcUser ++ d :: (methAdd ++ (a1 ++ ',' :: ' ' :: (a2 ++ ',' :: ' ' ::
          (a3 ++ ',' :: ' ' :: (a4 ++ ',' :: ' ' :: (b1 ++ ',' :: ' ' ::
            (b2 ++ [')']))))))))
      = pcUser ++ d :: (methAdd ++ (a1 ++ ',' :: ' ' :: (a2 ++ ',' :: ' ' ::
          (a3 ++ ',' :: ' ' :: (a4 ++ ',' :: ' ' :: (b1 ++ ',' :: ' ' :: (b2 ++
            ((",\n        user").data ++ d :: ((".address").data ++ [')']))))))))) := by
  have hmt : matchToks slotsAdd
      ((a1 ++ ',' :: ' ' :: (a2 ++ ',' :: ' ' :: (a3 ++ ',' :: ' ' ::
        (a4 ++ ',' :: ' ' :: (b1 ++ ',' :: ' ' :: b2))))) ++ [')']) contK
      = some (1, 0) := by
    have h := matchToks_slotsAdd_run h1 h2 h3 h4 (npSlot_comma_append hb1 hb2)
    simpa [List.append_assoc] using h
  have h := subScan_mFixGen_call methAdd slotsAdd d
    (a1 ++ ',' :: ' ' :: (a2 ++ ',' :: ' ' :: (a3 ++ ',' :: ' ' ::
      (a4 ++ ',' :: ' ' :: (b1 ++ ',' :: ' ' :: b2))))) hd hmt
  simpa [List.append_assoc] using h

/-- Witness for the amended C4 on a six-slot addLiquidity call. -/
theorem c4_amended_last_slot_commas_witness :
    ('1' = '1' ∨ '1' = '2') ∧
    ncSlot (("1").data) = true ∧ ncSlot (("2").data) = true ∧
    ncSlot (("3").data) = true ∧ ncSlot (("4").data) = true ∧
    npSlot (("5").data) = true ∧ npSlot (("6").data) = true ∧
    subScan pattern
        (pcUser ++ '1' :: (methAdd ++ ((("1").data) ++ ',' :: ' ' ::
          ((("2").data) ++ ',' :: ' ' :: ((("3").data) ++ ',' :: ' ' ::
          ((("4").data) ++ ',' :: ' ' :: ((("5").data) ++ ',' :: ' ' ::
            ((("6").data) ++ [')']))))))))
      = pcUser ++ '1' :: (methAdd ++ ((("1").data) ++ ',' :: ' ' ::
          ((("2").data) ++ ',' :: ' ' :: ((("3").data) ++ ',' :: ' ' ::
          ((("4").data) ++ ',' :: ' ' :: ((("5").data) ++ ',' :: ' ' :: ((("6").data) ++
            ((",\n        user").data ++ '1' :: ((".address").data ++ [')']))))))))) :=
  ⟨Or.inl rfl, by decide, by decide, by decide, by decide, by decide, by decide,
    c4_amended_last_slot_commas '1' (("1").data) (("2").data) (("3").data)
      (("4").data) (("5").data) (("6").data) (Or.inl rfl) (by decide) (by decide)
      (by decide) (by decide) (by decide) (by decide)⟩

/-! Helpers for locating the unique match of the duplicate-removal passes. -/

theorem mTok_first_lit_none {c0 : Char} {l : List Char} {ts : List Tok}
    {repl s : List Char} (h : leadsWith (c0 :: l) s = false) :
    mTok (Tok.lit (c0 :: l) :: ts) repl s = none := by
  rw [mTok, matchToks, if_neg (by simp [h])]

theorem mTok_some_mem {toks : List Tok} {repl s x : List Char} {n : Nat}
    (h : mTok toks repl s = some (x, n)) : ∀ c ∈ litChars toks, c ∈ s := by
  rw [mTok] at h
  cases hmt : matchToks toks s (fun r => some (s.length - r.length)) with
  | none => rw [hmt] at h; exact absurd h (by simp)
  | some n0 => exact matchToks_lit_mem _ _ _ hmt

theorem mDup1_some_semicolon {d : Char} {s x : List Char} {n : Nat}
    (h : mDup1 d s = some (x, n)) : ';' ∈ s := by
  refine mTok_some_mem h ';' ?_
  simp only [litChars, List.append_nil]
  refine List.mem_append.mpr (Or.inr ?_)
  refine List.mem_append.mpr (Or.inr ?_)
  refine List.mem_append.mpr (Or.inr ?_)
  decide

theorem mDup2_some_newline {d : Char} {s x : List Char} {n : Nat}
    (h : mDup2 d s = some (x, n)) : '\n' ∈ s := by
  refine mTok_some_mem h '\n' ?_
  simp [litChars]

theorem subScan_id_of_no_semicolon {d : Char} {t : List Char} (h : ';' ∉ t) :
    subScan (mDup1 d) t = t := by
  refine subScan_all_none (fun i => ?_)
  cases hm : mDup1 d (t.drop i) with
  | none => rfl
  | some p =>
    obtain ⟨x, n⟩ := p
    exact absurd (List.drop_subset i t (mDup1_some_semicolon hm)) h

theorem subScan_id_of_no_newline {d : Char} {t : List Char} (h : '\n' ∉ t) :
    subScan (mDup2 d) t = t := by
  refine subScan_all_none (fun i => ?_)
  cases hm : mDup2 d (t.drop i) with
  | none => rfl
  | some p =>
    obtain ⟨x, n⟩ := p
    exact absurd (List.drop_subset i t (mDup2_some_newline hm)) h

theorem subScan_append_concrete {m : Matcher} {pre tail out : List Char}
    (hpre : ∀ i, i < pre.length → m (pre.drop i ++ tail) = none)
    (htail : subScan m tail = out) :
    subScan m (pre ++ tail) = pre ++ out := by
  rw [subScan, subScanF_append_none m pre tail _ hpre (by simp)]
  congr 1
  have hlen : (pre ++ tail).length - pre.length = tail.length := by simp
  rw [hlen]
  exact htail

theorem all_drop_none_concrete {m : Matcher} {t : List Char}
    (hb : ∀ j, j < t.length → m (t.drop j) = none) (hnil : m [] = none) :
    ∀ j, m (t.drop j) = none := by
  intro j
  by_cases hj : j < t.length
  · exact hb j hj
  · rw [List.drop_eq_nil_of_le (by omega)]
    exact hnil

theorem subScan_append_id {m : Matcher} {pre tail : List Char}
    (hpre : ∀ i, i < pre.length → m (pre.drop i ++ tail) = none)
    (htail : ∀ j, m (tail.drop j) = none) :
    subScan m (pre ++ tail) = pre ++ tail := by
  refine subScan_all_none (fun i => ?_)
  by_cases hi : i < pre.length
  · rw [List.drop_append_of_le_length (Nat.le_of_lt hi)]
    exact hpre i hi
  · rw [List.drop_append_eq_append_drop, List.drop_eq_nil_of_le (by omega),
      List.nil_append]
    exact htail (i - pre.length)

theorem mDup2_none_of_head {d : Char} {s : List Char}
    (h : leadsWith [','] s = false) : mDup2 d s = none := by
  rw [mDup2]
  exact mTok_first_lit_none h

theorem prefix_none_of_no_comma {m : Matcher} {pre tail : List Char}
    (hm : ∀ s : List Char, leadsWith [','] s = false → m s = none)
    (hpre : ∀ c ∈ pre, (c == ',') = false) :
    ∀ i, i < pre.length → m (pre.drop i ++ tail) = none := by
  intro i hi
  apply hm
  have hdropeq : pre.drop i = pre[i] :: pre.drop (i + 1) :=
    (List.getElem_cons_drop pre i hi).symm
  rw [hdropeq, List.cons_append]
  have hne : pre[i] ≠ ',' := by
    have := hpre pre[i] (pre.getElem_mem hi)
    simpa using this
  have hbeq : (',' == pre[i]) = false := beq_eq_false_iff_ne.mpr (Ne.symm hne)
  simp [leadsWith, hbeq]


theorem leadsWith_single_shape {c : Char} {s : List Char}
    (h : leadsWith [c] s = true) : ∃ r, s = c :: r := by
  cases s with
  | nil => exact absurd h (by simp [leadsWith])
  | cons b bs =>
    simp only [leadsWith, Bool.and_eq_true, beq_iff_eq] at h
    exact ⟨bs, by rw [h.1]⟩

/-- Inversion of the semicolon-anchored substitution pattern: any match
starts with a comma, then a whitespace run, then a line break. -/
theorem mDup1_some_shape {d : Char} {s x : List Char} {n : Nat}
    (h : mDup1 d s = some (x, n)) :
    leadsWith [','] s = true ∧
      ∃ n1, (∀ c ∈ (s.drop 1).take n1, isWs c = true) ∧
        leadsWith ['\n'] ((s.drop 1).drop n1) = true := by
  rw [mDup1, mTok] at h
  cases hmt : matchToks [Tok.lit [','], Tok.star Cls.ws, Tok.lit ['\n'], Tok.star Cls.ws,
      Tok.lit (("user").data ++ [d] ++ (".address);").data)] s
      (fun r => some (s.length - r.length)) with
  | none => rw [hmt] at h; exact absurd h (by simp)
  | some n0 =>
    clear h
    rw [matchToks] at hmt
    by_cases hl : leadsWith [','] s = true
    · refine ⟨hl, ?_⟩
      rw [if_pos hl] at hmt
      rw [matchToks] at hmt
      obtain ⟨n1, hn1, hf⟩ := tryFrom_exists hmt
      refine ⟨n1, mem_take_runLen hn1, ?_⟩
      rw [matchToks] at hf
      by_cases hnl : leadsWith ['\n'] ((s.drop [','].length).drop n1) = true
      · exact hnl
      · rw [if_neg hnl] at hf; exact absurd hf (by simp)
    · rw [if_neg hl] at hmt; exact absurd hmt (by simp)

/-- The semicolon-anchored substitution cannot match at any position inside
a line-break-free prefix when the only line break of the following text
sits right after its leading comma: the whitespace run of the pattern
would have to cross that comma. -/
theorem mDup1_none_of_unique_newline {d : Char} {pre1 tail : List Char}
    (hne : pre1 ≠ []) (hpreN : '\n' ∉ pre1)
    (htail0 : ∃ r, tail = ',' :: r)
    (htailNl : ∀ j, j < tail.length → tail[j]? = some '\n' → j = 1) :
    mDup1 d (pre1 ++ tail) = none := by
  cases hm : mDup1 d (pre1 ++ tail) with
  | none => rfl
  | some p =>
    exfalso
    obtain ⟨x, n⟩ := p
    obtain ⟨hcomma, n1, hws, hnl⟩ := mDup1_some_shape hm
    obtain ⟨r0, hr0⟩ := htail0
    obtain ⟨r1, hr1⟩ := leadsWith_single_shape hnl
    rw [List.drop_drop] at hr1
    have hsome : (pre1 ++ tail)[1 + n1]? = some '\n' := by
      have h0 : ((pre1 ++ tail).drop (1 + n1))[0]? = some '\n' := by
        rw [hr1]
        simp
      rw [List.getElem?_drop] at h0
      simpa using h0
    have huniq : 1 + n1 = pre1.length + 1 := by
      rcases Nat.lt_or_ge (1 + n1) pre1.length with hlt | hge
      · rw [List.getElem?_append_left hlt] at hsome
        exact absurd (List.getElem?_mem hsome) hpreN
      · rw [List.getElem?_append_right hge] at hsome
        have hjl : 1 + n1 - pre1.length < tail.length := by
          obtain ⟨hb, -⟩ := List.getElem?_eq_some_iff.mp hsome
          omega
        have := htailNl (1 + n1 - pre1.length) hjl hsome
        omega
    have hpos : 0 < pre1.length := List.length_pos.mpr hne
    have hcm : ',' ∈ ((pre1 ++ tail).drop 1).take n1 := by
      have hsome2 : (((pre1 ++ tail).drop 1).take n1)[n1 - 1]? = some ',' := by
        rw [List.getElem?_take_of_lt (by omega), List.getElem?_drop]
        have hidx : 1 + (n1 - 1) = pre1.length := by omega
        rw [hidx, List.getElem?_append_right (Nat.le_refl _), Nat.sub_self, hr0]
        simp
      exact List.getElem?_mem hsome2
    have := hws ',' hcm
    simp [isWs] at this

/-- C9: the semicolon-anchored substitutions of cleanup.py delete any
trailing argument of the form comma, line break, whitespace, userN.address
immediately before a closing parenthesis followed by a semicolon,
regardless of whether that address argument was duplicated: a call whose
final address argument sits alone on a continuation line before the closer
loses that argument. -/
theorem c9_lone_trailing_address (d : Char) (pre : List Char)
    (hd : d = '1' ∨ d = '2') (hpre : '\n' ∉ pre) :
    subScan (mDup1 d)
        (pre ++ ((",\n        user").data ++ d :: (".address);").data))
      = pre ++ (");").data := by
  have hne : ∀ i, i < pre.length → pre.drop i ≠ [] := by
    intro i hi hnil
    have := congrArg List.length hnil
    simp at this
    omega
  have hpre2 : ∀ i, '\n' ∉ pre.drop i :=
    fun i hmem => hpre (List.drop_subset i pre hmem)
  rcases hd with rfl | rfl
  · have htail : (",\n        user").data ++ '1' :: (".address);").data
        = (",\n        user1.address);").data := by decide
    rw [htail]
    refine subScan_append_concrete ?_ (by decide)
    intro i hi
    refine mDup1_none_of_unique_newline (hne i hi) (hpre2 i)
      ⟨("\n        user1.address);").data, by decide⟩ (by decide)
  · have htail : (",\n        user").data ++ '2' :: (".address);").data
        = (",\n        user2.address);").data := by decide
    rw [htail]
    refine subScan_append_concrete ?_ (by decide)
    intro i hi
    refine mDup1_none_of_unique_newline (hne i hi) (hpre2 i)
      ⟨("\n        user2.address);").data, by decide⟩ (by decide)

/-- Witness for C9: a correct six-argument addLiquidity call whose final
user1.address argument sits on its own continuation line loses that
argument. -/
theorem c9_lone_trailing_address_witness :
    ('1' = '1' ∨ '1' = '2') ∧
    '\n' ∉ ("pool.connect(user1).addLiquidity(amountA, amountB, 0, 0, deadline").data ∧
    subScan (mDup1 '1')
        (("pool.connect(user1).addLiquidity(amountA, amountB, 0, 0, deadline").data ++
          ((",\n        user").data ++ '1' :: (".address);").data))
      = ("pool.connect(user1).addLiquidity(amountA, amountB, 0, 0, deadline").data ++
          (");").data :=
  ⟨Or.inl rfl, by decide,
    c9_lone_trailing_address '1'
      (("pool.connect(user1).addLiquidity(amountA, amountB, 0, 0, deadline").data)
      (Or.inl rfl) (by decide)⟩

/-! A stronger localization of the duplicate-removal matches: any match
must place the literal line break of its pattern at a line break of the
text, and its whitespace runs cannot cross the comma in front of that
line break, so a prefix without line breaks admits no match start.  This
needs no assumption on commas or semicolons in the prefix. -/

theorem if_eq_some_cond {c : Prop} [Decidable c] {α : Type} {a : Option α}
    {v : α} (h : (if c then a else none) = some v) : c := by
  by_cases hc : c
  · exact hc
  · rw [if_neg hc] at h
    exact absurd h (by simp)

theorem if_eq_some_val {c : Prop} [Decidable c] {α : Type} {a : Option α}
    {v : α} (h : (if c then a else none) = some v) : a = some v := by
  by_cases hc : c
  · rwa [if_pos hc] at h
  · rw [if_neg hc] at h
    exact absurd h (by simp)

theorem unique_newline_position {pre1 tail : List Char} {M : Nat}
    (hpreN : '\n' ∉ pre1)
    (htailNl : ∀ j, j < tail.length → tail[j]? = some '\n' → j = M) :
    ∀ p, (pre1 ++ tail)[p]? = some '\n' → p = pre1.length + M := by
  intro p hp
  rcases Nat.lt_or_ge p pre1.length with hlt | hge
  · rw [List.getElem?_append_left hlt] at hp
    exact absurd (List.getElem?_mem hp) hpreN
  · rw [List.getElem?_append_right hge] at hp
    obtain ⟨hb, -⟩ := List.getElem?_eq_some_iff.mp hp
    have := htailNl (p - pre1.length) hb hp
    omega

theorem append_tail_getElem {pre1 tail : List Char} {j : Nat} {c : Char}
    (h : tail[j]? = some c) : (pre1 ++ tail)[pre1.length + j]? = some c := by
  rw [List.getElem?_append_right (by omega), Nat.add_sub_cancel_left]
  exact h

theorem ws_run_elem {s : List Char} {off n j : Nat} {c : Char}
    (hws : ∀ x ∈ (s.drop off).take n, isWs x = true)
    (hj : j < n) (h : s[off + j]? = some c) : isWs c = true := by
  have h2 : ((s.drop off).take n)[j]? = some c := by
    rw [List.getElem?_take_of_lt hj, List.getElem?_drop]
    exact h
  exact hws c (List.getElem?_mem h2)

theorem drop_head_some {s r : List Char} {k : Nat} {c : Char}
    (h : s.drop k = c :: r) : s[k]? = some c := by
  have h0 : (s.drop k)[0]? = some c := by rw [h]; simp
  rw [List.getElem?_drop] at h0
  simpa using h0

/-- Inversion of the duplicated-address substitution pattern: any match
begins with a comma, a whitespace run, the thirteen-character address
literal, a comma, a second whitespace run, then a line break. -/
theorem mDup2_some_shape {d : Char} {s x : List Char} {n : Nat}
    (h : mDup2 d s = some (x, n)) :
    ∃ n1 n2, (∀ c ∈ (s.drop 1).take n1, isWs c = true) ∧
      (∀ c ∈ ((((s.drop 1).drop n1).drop 13).drop 1).take n2, isWs c = true) ∧
      leadsWith ['\n'] (((((s.drop 1).drop n1).drop 13).drop 1).drop n2) = true := by
  rw [mDup2, mTok] at h
  cases hmt : matchToks [Tok.lit [','], Tok.star Cls.ws,
      Tok.lit (("user").data ++ [d] ++ (".address").data), Tok.lit [','],
      Tok.star Cls.ws, Tok.lit ['\n'], Tok.star Cls.ws,
      Tok.lit (("user").data ++ [d] ++ (".address)").data)] s
      (fun r => some (s.length - r.length)) with
  | none => rw [hmt] at h; exact absurd h (by simp)
  | some n0 =>
    clear h
    rw [matchToks] at hmt
    have hs1 := if_eq_some_val hmt
    rw [matchToks] at hs1
    obtain ⟨n1, hn1, hf1⟩ := tryFrom_exists hs1
    rw [matchToks] at hf1
    have hs2 := if_eq_some_val hf1
    rw [matchToks] at hs2
    have hs3 := if_eq_some_val hs2
    rw [matchToks] at hs3
    obtain ⟨n2, hn2, hf2⟩ := tryFrom_exists hs3
    rw [matchToks] at hf2
    have hcond := if_eq_some_cond hf2
    exact ⟨n1, n2, mem_take_runLen hn1, mem_take_runLen hn2, hcond⟩

theorem ws_run_elem2 {s : List Char} {off n j p : Nat} {c : Char}
    (hws : ∀ x ∈ (s.drop off).take n, isWs x = true)
    (hj : j < n) (hp : p = off + j) (h : s[p]? = some c) : isWs c = true := by
  subst hp
  exact ws_run_elem hws hj h

/-- The semicolon-anchored substitution cannot match at the start of a
nonempty line-break-free prefix of a text whose only line break sits at
index sixteen of the tail, guarded by a non-whitespace character before
it: the pattern's whitespace run would have to cross that character.
Commas and semicolons in the prefix are irrelevant. -/
theorem mDup1_none_far_newline {d : Char} {pre1 tail : List Char} {c0 : Char}
    (hne : pre1 ≠ []) (hpreN : '\n' ∉ pre1)
    (htailc : tail[15]? = some c0) (hc0 : isWs c0 = false)
    (htailNl : ∀ j, j < tail.length → tail[j]? = some '\n' → j = 16) :
    mDup1 d (pre1 ++ tail) = none := by
  cases hm : mDup1 d (pre1 ++ tail) with
  | none => rfl
  | some p =>
    exfalso
    obtain ⟨x, n⟩ := p
    obtain ⟨-, n1, hws, hnl⟩ := mDup1_some_shape hm
    obtain ⟨r1, hr1⟩ := leadsWith_single_shape hnl
    rw [List.drop_drop] at hr1
    have hsome := drop_head_some hr1
    have huniq := unique_newline_position hpreN htailNl _ hsome
    have hpos : 0 < pre1.length := List.length_pos.mpr hne
    have h15 : (pre1 ++ tail)[pre1.length + 15]? = some c0 := append_tail_getElem htailc
    have := ws_run_elem2 hws (j := pre1.length + 14) (by omega) (by omega) h15
    simp [hc0] at this

/-- The duplicated-address substitution cannot match at the start of a
nonempty line-break-free prefix either, whatever commas the prefix holds:
one of the two whitespace runs of the pattern would have to cross the
non-whitespace characters at indices zero and fifteen of the tail. -/
theorem mDup2_none_far_newline {d : Char} {pre1 tail : List Char} {c0 c1 : Char}
    (hne : pre1 ≠ []) (hpreN : '\n' ∉ pre1)
    (htail0 : tail[0]? = some c1) (hc1 : isWs c1 = false)
    (htailc : tail[15]? = some c0) (hc0 : isWs c0 = false)
    (htailNl : ∀ j, j < tail.length → tail[j]? = some '\n' → j = 16) :
    mDup2 d (pre1 ++ tail) = none := by
  cases hm : mDup2 d (pre1 ++ tail) with
  | none => rfl
  | some p =>
    exfalso
    obtain ⟨x, n⟩ := p
    obtain ⟨n1, n2, hws1, hws2, hnl⟩ := mDup2_some_shape hm
    obtain ⟨r1, hr1⟩ := leadsWith_single_shape hnl
    rw [List.drop_drop, List.drop_drop, List.drop_drop, List.drop_drop] at hr1
    have hsome := drop_head_some hr1
    have huniq := unique_newline_position hpreN htailNl _ hsome
    have hpos : 0 < pre1.length := List.length_pos.mpr hne
    rcases Nat.eq_zero_or_pos n2 with hn2z | hn2p
    · have h0 : (pre1 ++ tail)[pre1.length + 0]? = some c1 := append_tail_getElem htail0
      have := ws_run_elem2 hws1 (j := pre1.length - 1) (by omega) (by omega) h0
      simp [hc1] at this
    · rw [List.drop_drop, List.drop_drop, List.drop_drop] at hws2
      have h15 : (pre1 ++ tail)[pre1.length + 15]? = some c0 := append_tail_getElem htailc
      have := ws_run_elem2 hws2 (j := n2 - 1) (by omega) (by omega) h15
      simp [hc0] at this

/-- C5: duplicate collapse.  For either identifier variant d, a call
ending in a duplicated trailing address argument (the second occurrence on
its own line) is rewritten by the duplicate-removal passes of cleanup.py
so that it ends in a single occurrence of the argument.  The preceding
text is arbitrary apart from containing no line break, so the claim
covers multi-argument calls whose earlier arguments contain commas, as in
the spec scenario. -/
theorem c5_duplicate_collapse (d : Char) (pre : List Char)
    (hd : d = '1' ∨ d = '2') (hpre : '\n' ∉ pre) :
    dupPass (pre ++ ((", user").data ++ d ::
        ((".address,\n  user").data ++ d :: (".address)").data)))
      = pre ++ ((", user").data ++ d :: (".address)").data) := by
  have hne : ∀ i, i < pre.length → pre.drop i ≠ [] := by
    intro i hi hnil
    have := congrArg List.length hnil
    simp at this
    omega
  have hpre2 : ∀ i, '\n' ∉ pre.drop i :=
    fun i hmem => hpre (List.drop_subset i pre hmem)
  rcases hd with rfl | rfl
  · have htail : (", user").data ++ '1' ::
        ((".address,\n  user").data ++ '1' :: (".address)").data)
        = (", user1.address,\n  user1.address)").data := by decide
    have htail2 : (", user").data ++ '1' :: (".address)").data
        = (", user1.address)").data := by decide
    rw [htail, htail2]
    have h15 : ((", user1.address,\n  user1.address)").data)[15]? = some ',' := by
      decide
    have h0 : ((", user1.address,\n  user1.address)").data)[0]? = some ',' := by
      decide
    have hcw : isWs ',' = false := by decide
    show subScan (mDup2 '2') (subScan (mDup2 '1')
      (subScan (mDup1 '2') (subScan (mDup1 '1') _))) = _
    have hid1 : subScan (mDup1 '1')
        (pre ++ (", user1.address,\n  user1.address)").data)
        = pre ++ (", user1.address,\n  user1.address)").data := by
      refine subScan_append_id ?_ (all_drop_none_concrete (by decide) (by decide))
      intro i hi
      exact mDup1_none_far_newline (hne i hi) (hpre2 i) h15 hcw (by decide)
    rw [hid1]
    have hid2 : subScan (mDup1 '2')
        (pre ++ (", user1.address,\n  user1.address)").data)
        = pre ++ (", user1.address,\n  user1.address)").data := by
      refine subScan_append_id ?_ (all_drop_none_concrete (by decide) (by decide))
      intro i hi
      exact mDup1_none_far_newline (hne i hi) (hpre2 i) h15 hcw (by decide)
    rw [hid2]
    have hstep : subScan (mDup2 '1')
        (pre ++ (", user1.address,\n  user1.address)").data)
        = pre ++ (", user1.address)").data := by
      refine subScan_append_concrete ?_ (by decide)
      intro i hi
      exact mDup2_none_far_newline (hne i hi) (hpre2 i) h0 hcw h15 hcw
        (by decide)
    rw [hstep]
    refine subScan_id_of_no_newline ?_
    intro hmem
    rcases List.mem_append.mp hmem with h | h
    · exact hpre h
    · exact absurd h (by decide)
  · have htail : (", user").data ++ '2' ::
        ((".address,\n  user").data ++ '2' :: (".address)").data)
        = (", user2.address,\n  user2.address)").data := by decide
    have htail2 : (", user").data ++ '2' :: (".address)").data
        = (", user2.address)").data := by decide
    rw [htail, htail2]
    have h15 : ((", user2.address,\n  user2.address)").data)[15]? = some ',' := by
      decide
    have h0 : ((", user2.address,\n  user2.address)").data)[0]? = some ',' := by
      decide
    have hcw : isWs ',' = false := by decide
    show subScan (mDup2 '2') (subScan (mDup2 '1')
      (subScan (mDup1 '2') (subScan (mDup1 '1') _))) = _
    have hid1 : subScan (mDup1 '1')
        (pre ++ (", user2.address,\n  user2.address)").data)
        = pre ++ (", user2.address,\n  user2.address)").data := by
      refine subScan_append_id ?_ (all_drop_none_concrete (by decide) (by decide))
      intro i hi
      exact mDup1_none_far_newline (hne i hi) (hpre2 i) h15 hcw (by decide)
    rw [hid1]
    have hid2 : subScan (mDup1 '2')
        (pre ++ (", user2.address,\n  user2.address)").data)
        = pre ++ (", user2.address,\n  user2.address)").data := by
      refine subScan_append_id ?_ (all_drop_none_concrete (by decide) (by decide))
      intro i hi
      exact mDup1_none_far_newline (hne i hi) (hpre2 i) h15 hcw (by decide)
    rw [hid2]
    have hid3 : subScan (mDup2 '1')
        (pre ++ (", user2.address,\n  user2.address)").data)
        = pre ++ (", user2.address,\n  user2.address)").data := by
      refine subScan_append_id ?_ (all_drop_none_concrete (by decide) (by decide))
      intro i hi
      exact mDup2_none_far_newline (hne i hi) (hpre2 i) h0 hcw h15 hcw
        (by decide)
    rw [hid3]
    refine subScan_append_concrete ?_ (by decide)
    intro i hi
    exact mDup2_none_far_newline (hne i hi) (hpre2 i) h0 hcw h15 hcw
      (by decide)

/-- Witness for C5 on the spec removeLiquidity scenario shape, whose
preceding argument list contains commas. -/
theorem c5_duplicate_collapse_witness :
    ('1' = '1' ∨ '1' = '2') ∧
    '\n' ∉ ("removeLiquidity(lpBalance, 0, 0, pastDeadline").data ∧
    dupPass (("removeLiquidity(lpBalance, 0, 0, pastDeadline").data ++
        ((", user").data ++ '1' ::
          ((".address,\n  user").data ++ '1' :: (".address)").data)))
      = ("removeLiquidity(lpBalance, 0, 0, pastDeadline").data ++
        ((", user").data ++ '1' :: (".address)").data) :=
  ⟨Or.inl rfl, by decide,
    c5_duplicate_collapse '1' (("removeLiquidity(lpBalance, 0, 0, pastDeadline").data)
      (Or.inl rfl) (by decide)⟩
